import Mathlib

/-!
Verification of the collapsed Gibbs sampler for LDA in `src/topics/lda_gibbs.cpp`
(namespace `meta::topics`, class `lda_gibbs`).

Shallow embedding conventions:
* `term_id`, `doc_id`, `topic_id` (unsigned integer ids) are modelled as `ℕ`.
* The three sparse count tables (`std::unordered_map` nested maps) are modelled as
  functions into `Option`: an absent key is `none`.  `operator[]` default-construction
  and `erase` are modelled explicitly.  `doc_word_topic_` (nested map defaulting to
  `topic_id{0}`) is modelled as a total function `ℕ → ℕ → ℕ`.
* `double` arithmetic is modelled over `ℚ`; `std::lgamma` is an abstract parameter
  (field `lgamma` of the parameter record).
* The forward index (`idx_`) is read-only and is modelled by the fields `docs`,
  `counts` (the postings of a document) and `doc_size` of the parameter record.
* The RNG (`rng_`) together with `std::discrete_distribution` is modelled by an
  abstract field `draw : List ℚ → ℕ → ℕ`, mapping the weight vector and the number
  of draws made so far to the drawn index; the state records the number of draws
  (`rng_pos`).  The C++ `.at` accessor throwing on an absent key is modelled by
  `Option`: `none` is the fatal invariant-break outcome.
-/

namespace topics

/-- Immutable data of a sampler run: model parameters (`num_topics_`, `num_words_`,
`alpha_`, `beta_`), the borrowed forward index (`docs`, `counts`, `doc_size`), the
`std::lgamma` implementation, and the RNG/discrete-distribution draw function. -/
structure LDAParams where
  num_topics : ℕ
  num_words : ℕ
  alpha : ℚ
  beta : ℚ
  docs : List ℕ
  counts : ℕ → List (ℕ × ℕ)
  doc_size : ℕ → ℕ
  lgamma : ℚ → ℚ
  draw : List ℚ → ℕ → ℕ

/-- Mutable sampler state: the three sparse count tables, the per-token topic
assignments and the RNG draw position. -/
@[ext] structure GibbsState where
  topic_term_count : ℕ → Option (ℕ → Option ℕ)
  doc_topic_count : ℕ → Option (ℕ → Option ℕ)
  topic_count : ℕ → Option ℕ
  doc_word_topic : ℕ → ℕ → ℕ
  rng_pos : ℕ

/-- Pointwise update of a map modelled as a function. -/
def upd {α : Type} (f : ℕ → α) (k : ℕ) (v : α) : ℕ → α :=
  fun k' => if k' = k then v else f k'

/-- The empty inner map (default-constructed `std::unordered_map`). -/
def emptyInner : ℕ → Option ℕ := fun _ => none

/-- The state right after construction: all tables empty, `doc_word_topic_` an empty
nested map (reads default to `topic_id{0}`), no RNG draws made. -/
def fresh_state : GibbsState :=
  { topic_term_count := fun _ => none
    doc_topic_count := fun _ => none
    topic_count := fun _ => none
    doc_word_topic := fun _ _ => 0
    rng_pos := 0 }

/-- `lda_gibbs::count_term` (lda_gibbs.cpp:87-96): value of
`topic_term_count_[topic][term]`, 0 when either key is absent. -/
def count_term (s : GibbsState) (term topic : ℕ) : ℕ :=
  (((s.topic_term_count topic).getD emptyInner) term).getD 0

/-- `lda_gibbs::count_topic` (lda_gibbs.cpp:98-104): value of `topic_count_[topic]`,
0 when absent. -/
def count_topic (s : GibbsState) (topic : ℕ) : ℕ :=
  (s.topic_count topic).getD 0

/-- `lda_gibbs::count_doc(doc, topic)` (lda_gibbs.cpp:106-115): value of
`doc_topic_count_[doc][topic]`, 0 when either key is absent. -/
def count_doc (s : GibbsState) (doc topic : ℕ) : ℕ :=
  (((s.doc_topic_count doc).getD emptyInner) topic).getD 0

/-- `lda_gibbs::count_doc(doc)` (lda_gibbs.cpp:117-120): returns `idx_->doc_size(doc)`
from the forward index, not a recomputed sum. -/
def count_doc_total (p : LDAParams) (doc : ℕ) : ℕ :=
  p.doc_size doc

/-- `lda_gibbs::compute_term_topic_probability` (lda_gibbs.cpp:73-78). -/
def compute_term_topic_probability (p : LDAParams) (s : GibbsState) (term topic : ℕ) : ℚ :=
  ((count_term s term topic : ℚ) + p.beta)
    / ((count_topic s topic : ℚ) + (p.num_words : ℚ) * p.beta)

/-- `lda_gibbs::compute_doc_topic_probability` (lda_gibbs.cpp:80-85). -/
def compute_doc_topic_probability (p : LDAParams) (s : GibbsState) (doc topic : ℕ) : ℚ :=
  ((count_doc s doc topic : ℚ) + p.alpha)
    / ((count_doc_total p doc : ℚ) + (p.num_topics : ℚ) * p.alpha)

/-- `lda_gibbs::compute_probability` (lda_gibbs.cpp:66-71). -/
def compute_probability (p : LDAParams) (s : GibbsState) (term doc topic : ℕ) : ℚ :=
  compute_term_topic_probability p s term topic * compute_doc_topic_probability p s doc topic

/-- The weight vector built in `lda_gibbs::sample_topic` (lda_gibbs.cpp:59-61):
`weights[j] = compute_probability(term, doc, j)` for `j < num_topics_`. -/
def weights (p : LDAParams) (s : GibbsState) (term doc : ℕ) : List ℚ :=
  (List.range p.num_topics).map fun j => compute_probability p s term doc j

/-- `lda_gibbs::sample_topic` (lda_gibbs.cpp:57-64): builds the weight vector and
draws one index from `std::discrete_distribution` using the member RNG (modelled by
`p.draw` and the draw position), advancing the RNG. -/
def sample_topic (p : LDAParams) (s : GibbsState) (term doc : ℕ) : ℕ × GibbsState :=
  (p.draw (weights p s term doc) s.rng_pos, { s with rng_pos := s.rng_pos + 1 })

/-- `lda_gibbs::increase_counts` (lda_gibbs.cpp:188-193): increments
`topic_term_count_[topic][term]`, `doc_topic_count_[doc][topic]` and
`topic_count_[topic]` by one, default-constructing absent entries. -/
def increase_counts (s : GibbsState) (topic term doc : ℕ) : GibbsState :=
  let tt := (s.topic_term_count topic).getD emptyInner
  let dt := (s.doc_topic_count doc).getD emptyInner
  { s with
    topic_term_count :=
      upd s.topic_term_count topic (some (upd tt term (some ((tt term).getD 0 + 1))))
    doc_topic_count :=
      upd s.doc_topic_count doc (some (upd dt topic (some ((dt topic).getD 0 + 1))))
    topic_count := upd s.topic_count topic (some ((s.topic_count topic).getD 0 + 1)) }

/-- `lda_gibbs::decrease_counts` (lda_gibbs.cpp:164-186): decrements the same three
counters, erasing a key that reaches zero.  Each `.at` call throws when the key is
absent; this fatal outcome is modelled by `none` (the partially mutated state the
exception would leave behind is indeterminate per the spec and is discarded). -/
def decrease_counts (s : GibbsState) (topic term doc : ℕ) : Option GibbsState := do
  let tt ← s.topic_term_count topic
  let ttv ← tt term
  let tt' := if ttv = 1 then upd tt term none else upd tt term (some (ttv - 1))
  let dt ← s.doc_topic_count doc
  let dtv ← dt topic
  let dt' := if dtv = 1 then upd dt topic none else upd dt topic (some (dtv - 1))
  let tcv ← s.topic_count topic
  let tc' := if tcv = 1 then upd s.topic_count topic none
             else upd s.topic_count topic (some (tcv - 1))
  some { s with
    topic_term_count := upd s.topic_term_count topic (some tt')
    doc_topic_count := upd s.doc_topic_count doc (some dt')
    topic_count := tc' }

/-- Write `doc_word_topic_[doc][n] = topic` (lda_gibbs.cpp:154). -/
def setAssignment (s : GibbsState) (doc n topic : ℕ) : GibbsState :=
  { s with doc_word_topic := upd s.doc_word_topic doc (upd (s.doc_word_topic doc) n topic) }

/-- The loop body of `lda_gibbs::perform_iteration` for one token occurrence
(lda_gibbs.cpp:146-158), with the document-local position `n` explicit:
read the old assignment, decrement it (skipped during initialization), sample a new
topic from the decremented counts, record it, and increment the counts. -/
def gibbsStep (p : LDAParams) (init : Bool) (doc n term : ℕ) (s : GibbsState) :
    Option GibbsState := do
  let old_topic := s.doc_word_topic doc n
  let s1 ← if init then some s else decrease_counts s old_topic term doc
  let ts := sample_topic p s1 term doc
  some (increase_counts (setAssignment ts.2 doc n ts.1) ts.1 term doc)

/-- One token occurrence of `perform_iteration`'s innermost loop, threading the
document-local token counter `n` (lda_gibbs.cpp:144-159). -/
def resample_token (p : LDAParams) (init : Bool) (doc term : ℕ) (sn : GibbsState × ℕ) :
    Option (GibbsState × ℕ) := do
  let s ← gibbsStep p init doc sn.2 term sn.1
  some (s, sn.2 + 1)

/-- The middle loop of `perform_iteration`: all `freq.second` occurrences of one
posting (lda_gibbs.cpp:142-160). -/
def process_posting (p : LDAParams) (init : Bool) (doc : ℕ) (sn : GibbsState × ℕ)
    (posting : ℕ × ℕ) : Option (GibbsState × ℕ) :=
  (List.range posting.2).foldlM (fun acc _ => resample_token p init doc posting.1 acc) sn

/-- The per-document part of `perform_iteration`: the token counter `n` starts at 0
and runs over the postings of the document (lda_gibbs.cpp:139-160). -/
def process_doc (p : LDAParams) (init : Bool) (s : GibbsState) (doc : ℕ) :
    Option GibbsState :=
  ((p.counts doc).foldlM (process_posting p init doc) (s, 0)).map Prod.fst

/-- `lda_gibbs::perform_iteration` (lda_gibbs.cpp:127-162).  The `iter` argument of
the C++ function is used only for the progress log line and is omitted. -/
def perform_iteration (p : LDAParams) (init : Bool) (s : GibbsState) : Option GibbsState :=
  p.docs.foldlM (process_doc p init) s

/-- `lda_gibbs::initialize` (lda_gibbs.cpp:122-125): a sweep with `init = true`
(no decrements).  Named `init_sweep` because `initialize` is a Lean keyword. -/
def init_sweep (p : LDAParams) (s : GibbsState) : Option GibbsState :=
  perform_iteration p true s

/-- `lda_gibbs::corpus_likelihood` (lda_gibbs.cpp:195-212), accumulated in the source
order: topics outermost, documents next, postings innermost. -/
def corpus_likelihood (p : LDAParams) (s : GibbsState) : ℚ :=
  (List.range p.num_topics).foldl
    (fun acc j =>
      (p.docs.foldl
        (fun acc2 d =>
          (p.counts d).foldl
            (fun acc3 fr => acc3 + (fr.2 : ℚ) * p.lgamma ((count_term s fr.1 j : ℚ) + p.beta))
            acc2)
        acc)
      - p.lgamma ((count_topic s j : ℚ) + (p.num_words : ℚ) * p.beta))
    ((p.num_topics : ℚ) * (p.lgamma ((p.num_words : ℚ) * p.beta)
      - (p.num_words : ℚ) * p.lgamma p.beta))

/-- Termination statuses of `lda_gibbs::run`: `Converged` for the early `break` on
the ratio test (lda_gibbs.cpp:47-52), `Exhausted` for running out of iterations. -/
inductive RunStatus where
  | Converged : RunStatus
  | Exhausted : RunStatus
deriving DecidableEq

/-- The iteration loop of `lda_gibbs::run` (lda_gibbs.cpp:36-53): perform an
iteration, recompute the likelihood, test `fabs((likelihood - likelihood_update) /
likelihood) <= convergence`, and stop or continue.  The list accumulates the
per-iteration log-likelihood values (the logged sequence), returned in order. -/
def run_loop (p : LDAParams) (convergence : ℚ) :
    ℕ → ℚ → GibbsState → List ℚ → Option (GibbsState × List ℚ × RunStatus)
  | 0, _, s, acc => some (s, acc.reverse, RunStatus.Exhausted)
  | fuel + 1, likelihood, s, acc =>
    (perform_iteration p false s).bind fun s' =>
      let likelihood_update := corpus_likelihood p s'
      let ratio := |(likelihood - likelihood_update) / likelihood|
      if ratio ≤ convergence then some (s', ((likelihood_update :: acc).reverse), RunStatus.Converged)
      else run_loop p convergence fuel likelihood_update s' (likelihood_update :: acc)

/-- `lda_gibbs::run` (lda_gibbs.cpp:26-55): initialization sweep, post-initialization
likelihood, then at most `num_iters` iterations with the convergence test. -/
def run (p : LDAParams) (num_iters : ℕ) (convergence : ℚ) (s : GibbsState) :
    Option (GibbsState × List ℚ × RunStatus) :=
  (init_sweep p s).bind fun s0 =>
    run_loop p convergence num_iters (corpus_likelihood p s0) s0 []

/-! ## Token enumeration and canonical counts (analysis vocabulary) -/

/-- The occurrence sequence of a document: each posting `(w, c)` contributes `c`
copies of `w`, in postings order.  Position `n` in this list is the spec's
document-local token index. -/
def docTokens (p : LDAParams) (d : ℕ) : List ℕ :=
  (p.counts d).flatMap fun wc => List.replicate wc.2 wc.1

/-- All token occurrences of the corpus as `(doc, position, term)` triples, in the
order the driver visits them. -/
def tokenList (p : LDAParams) : List (ℕ × ℕ × ℕ) :=
  p.docs.flatMap fun d => ((docTokens p d).enum).map fun nw => (d, nw.1, nw.2)

/-- Number of tokens of `tks` with term `term` currently assigned to `topic`. -/
def countTT (tks : List (ℕ × ℕ × ℕ)) (dwt : ℕ → ℕ → ℕ) (term topic : ℕ) : ℕ :=
  tks.countP fun tk => tk.2.2 == term && dwt tk.1 tk.2.1 == topic

/-- Number of tokens of `tks` in document `doc` currently assigned to `topic`. -/
def countDT (tks : List (ℕ × ℕ × ℕ)) (dwt : ℕ → ℕ → ℕ) (doc topic : ℕ) : ℕ :=
  tks.countP fun tk => tk.1 == doc && dwt tk.1 tk.2.1 == topic

/-- Number of tokens of `tks` currently assigned to `topic`. -/
def countT (tks : List (ℕ × ℕ × ℕ)) (dwt : ℕ → ℕ → ℕ) (topic : ℕ) : ℕ :=
  tks.countP fun tk => dwt tk.1 tk.2.1 == topic

/-- The count tables agree with the counts induced by the current assignments. -/
def Consistent (p : LDAParams) (s : GibbsState) : Prop :=
  (∀ w t, count_term s w t = countTT (tokenList p) s.doc_word_topic w t) ∧
  (∀ d t, count_doc s d t = countDT (tokenList p) s.doc_word_topic d t) ∧
  (∀ t, count_topic s t = countT (tokenList p) s.doc_word_topic t)

/-- Every token position holds a valid topic id. -/
def BoundedTok (p : LDAParams) (s : GibbsState) : Prop :=
  ∀ tk ∈ tokenList p, s.doc_word_topic tk.1 tk.2.1 < p.num_topics

/-- The token positions of a token list are pairwise distinct. -/
def PosNodup (tks : List (ℕ × ℕ × ℕ)) : Prop :=
  (tks.map fun tk => (tk.1, tk.2.1)).Nodup

/-- `Σ_t topic_count[t]` over all topics `t < K`. -/
def TopicSum (p : LDAParams) (s : GibbsState) : ℕ :=
  ∑ t ∈ Finset.range p.num_topics, count_topic s t

/-- `Σ_d doc_size(d)`: the total token count of the corpus. -/
def totalSize (p : LDAParams) : ℕ :=
  (p.docs.map p.doc_size).sum

/-- One step of the flat token fold: process token `tk = (doc, position, term)`. -/
def flatStep (p : LDAParams) (init : Bool) (s : GibbsState) (tk : ℕ × ℕ × ℕ) :
    Option GibbsState :=
  gibbsStep p init tk.1 tk.2.1 tk.2.2 s

/-- The whole sweep as a flat fold over the corpus token list. -/
def sweep (p : LDAParams) (init : Bool) (s : GibbsState) : Option GibbsState :=
  (tokenList p).foldlM (flatStep p init) s

/-! ## Spec-side definitions (transcribed from the specification text, for
comparison against the source-derived definitions) -/

/-- The five-step resample sequence exactly as the spec's "Iteration k" section
numbers it: (1) read `old`, (2) `decrease(old, w, d)`, (3) sample with the token's
own contribution excluded, (4) store the new assignment at the document-local index
`n`, (5) `increase(new, w, d)`. -/
def specResampleStep (p : LDAParams) (doc n term : ℕ) (s : GibbsState) :
    Option GibbsState := do
  let old := s.doc_word_topic doc n
  let s1 ← decrease_counts s old term doc
  let ts := sample_topic p s1 term doc
  some (increase_counts (setAssignment ts.2 doc n ts.1) ts.1 term doc)

/-- A full iteration as the spec words it: each document of `docs()` in order, each
occurrence of its token sequence with its document-local index `n`, resampled by the
five-step sequence. -/
def specIteration (p : LDAParams) (s : GibbsState) : Option GibbsState :=
  p.docs.foldlM
    (fun s d => ((docTokens p d).enum).foldlM
      (fun s nw => specResampleStep p d nw.1 nw.2 s) s) s

/-- The convergence loop as the spec words it: `ratio = |L_k - L_{k-1}| / |L_{k-1}|`,
stop with `Converged` when `ratio ≤ ε`, with `Exhausted` when the iterations run
out. -/
def specRunLoop (p : LDAParams) (convergence : ℚ) :
    ℕ → ℚ → GibbsState → List ℚ → Option (GibbsState × List ℚ × RunStatus)
  | 0, _, s, acc => some (s, acc.reverse, RunStatus.Exhausted)
  | fuel + 1, likelihood, s, acc =>
    (perform_iteration p false s).bind fun s' =>
      let lk := corpus_likelihood p s'
      let ratio := |lk - likelihood| / |likelihood|
      if ratio ≤ convergence then some (s', ((lk :: acc).reverse), RunStatus.Converged)
      else specRunLoop p convergence fuel lk s' (lk :: acc)

/-- The log-likelihood formula as displayed in the spec:
`K·(lnΓ(V·β) − V·lnΓ(β)) + Σ_t [ Σ_d Σ_{(w,c)} c·lnΓ(count_term(w,t)+β) −
lnΓ(count_topic(t)+V·β) ]`, with the sums nested topics/documents/postings. -/
def corpus_likelihood_spec (p : LDAParams) (s : GibbsState) : ℚ :=
  (p.num_topics : ℚ) * (p.lgamma ((p.num_words : ℚ) * p.beta)
      - (p.num_words : ℚ) * p.lgamma p.beta)
    + ((List.range p.num_topics).map fun j =>
        ((p.docs.map fun d =>
            ((p.counts d).map fun fr =>
              (fr.2 : ℚ) * p.lgamma ((count_term s fr.1 j : ℚ) + p.beta)).sum).sum)
        - p.lgamma ((count_topic s j : ℚ) + (p.num_words : ℚ) * p.beta)).sum

/-- No zero-valued entry is stored in any of the three count tables. -/
def NoZeros (s : GibbsState) : Prop :=
  (∀ t m, s.topic_term_count t = some m → ∀ w v, m w = some v → 0 < v) ∧
  (∀ d m, s.doc_topic_count d = some m → ∀ t v, m t = some v → 0 < v) ∧
  (∀ t v, s.topic_count t = some v → 0 < v)

/-! ## Construction (error taxonomy) -/

/-- The data the constructor reads from the forward index. -/
structure IndexInfo where
  num_docs : ℕ
  num_terms : ℕ
deriving DecidableEq

/-- Configuration precondition violations distinguishable at construction. -/
inductive ConfigError where
  | bad_topics : ConfigError
  | bad_vocab : ConfigError
  | bad_docs : ConfigError
deriving DecidableEq

/-- The members the `lda_model` base class stores. -/
structure LdaModelBase where
  num_topics : ℕ
  num_words : ℕ
  num_docs : ℕ
deriving DecidableEq

/-- Modelled from the spec: the `lda_model` base-class constructor (declared in
`topics/lda_model.h`, which is not in src/) receives the forward index and the topic
count; the spec's error taxonomy says configuration errors fail at construction with
a precondition violation, and of the listed conditions this constructor can observe
K = 0, V = 0 and D = 0. -/
def lda_model_construct (idx : IndexInfo) (num_topics : ℕ) :
    Except ConfigError LdaModelBase :=
  if num_topics = 0 then Except.error ConfigError.bad_topics
  else if idx.num_terms = 0 then Except.error ConfigError.bad_vocab
  else if idx.num_docs = 0 then Except.error ConfigError.bad_docs
  else Except.ok ⟨num_topics, idx.num_terms, idx.num_docs⟩

/-- The members the sampler stores at construction. -/
structure LdaGibbsSampler where
  base : LdaModelBase
  alpha : ℚ
  beta : ℚ
  rng_seed : ℕ
deriving DecidableEq

/-- `lda_gibbs::lda_gibbs` (lda_gibbs.cpp:18-24): forwards the index and topic count
to the base constructor, stores `alpha_` and `beta_` without any validation, and
seeds the RNG from one `std::random_device` draw (the `entropy` argument; the
constructor takes no seed parameter from the caller). -/
def lda_gibbs_construct (idx : IndexInfo) (num_topics : ℕ) (alpha beta : ℚ)
    (entropy : ℕ) : Except ConfigError LdaGibbsSampler :=
  (lda_model_construct idx num_topics).map fun b => ⟨b, alpha, beta, entropy⟩

/-! ## Concrete fixtures used by witnesses and counterexamples -/

/-- A one-document, one-token corpus with `K = 1` and a constant draw function. -/
def wParams : LDAParams :=
  { num_topics := 1
    num_words := 1
    alpha := 1
    beta := 1
    docs := [0]
    counts := fun d => if d = 0 then [(0, 1)] else []
    doc_size := fun d => if d = 0 then 1 else 0
    lgamma := fun _ => 0
    draw := fun _ _ => 0 }

/-- A state with one stored count in each table. -/
def wState : GibbsState := increase_counts fresh_state 0 0 0

/-- A family of parameter records identical in every caller-supplied argument
(index contents, `K`, `α`, `β`) and differing only in the RNG stream derived from
the `std::random_device` value drawn at construction. -/
def entropyParams (e : ℕ) : LDAParams :=
  { num_topics := 2
    num_words := 2
    alpha := 1
    beta := 1
    docs := [0]
    counts := fun d => if d = 0 then [(0, 1)] else []
    doc_size := fun d => if d = 0 then 1 else 0
    lgamma := fun _ => 0
    draw := fun _ _ => e }

/-- Parameters accepted by the unvalidating constructor with `β = 0`. -/
def zeroWeightParams : LDAParams :=
  { num_topics := 2
    num_words := 2
    alpha := 1/2
    beta := 0
    docs := [0]
    counts := fun _ => [(1, 2)]
    doc_size := fun _ => 2
    lgamma := fun _ => 0
    draw := fun _ _ => 0 }

/-- A reachable state in which term 1 is assigned once to each of the two topics, so
both topic counts are positive while term 0 has no assignment anywhere. -/
def zeroWeightState : GibbsState :=
  increase_counts (increase_counts fresh_state 0 1 0) 1 1 0

/-! ## Pointwise behaviour of the count-table operations -/

theorem count_term_increase (s : GibbsState) (t w d w' t' : ℕ) :
    count_term (increase_counts s t w d) w' t'
      = count_term s w' t' + if t' = t ∧ w' = w then 1 else 0 := by
  by_cases ht : t' = t
  · by_cases hw : w' = w
    · subst ht; subst hw; simp [count_term, increase_counts, upd]
    · subst ht; simp [count_term, increase_counts, upd, hw]
  · simp [count_term, increase_counts, upd, ht]

theorem count_doc_increase (s : GibbsState) (t w d d' t' : ℕ) :
    count_doc (increase_counts s t w d) d' t'
      = count_doc s d' t' + if d' = d ∧ t' = t then 1 else 0 := by
  by_cases hd : d' = d
  · by_cases ht : t' = t
    · subst hd; subst ht; simp [count_doc, increase_counts, upd]
    · subst hd; simp [count_doc, increase_counts, upd, ht]
  · simp [count_doc, increase_counts, upd, hd]

theorem count_topic_increase (s : GibbsState) (t w d t' : ℕ) :
    count_topic (increase_counts s t w d) t'
      = count_topic s t' + if t' = t then 1 else 0 := by
  by_cases ht : t' = t
  · subst ht; simp [count_topic, increase_counts, upd]
  · simp [count_topic, increase_counts, upd, ht]

@[simp] theorem dwt_increase (s : GibbsState) (t w d : ℕ) :
    (increase_counts s t w d).doc_word_topic = s.doc_word_topic := rfl

@[simp] theorem rng_increase (s : GibbsState) (t w d : ℕ) :
    (increase_counts s t w d).rng_pos = s.rng_pos := rfl

/-- Successful `decrease_counts`: under the precondition that all three counters are
at least one, the call succeeds and decrements exactly the three addressed counters
(stated additively), leaving assignments and the RNG untouched. -/
theorem decrease_spec (s : GibbsState) (t w d : ℕ)
    (h1 : 1 ≤ count_term s w t) (h2 : 1 ≤ count_doc s d t) (h3 : 1 ≤ count_topic s t) :
    ∃ s', decrease_counts s t w d = some s' ∧
      (∀ w' t', count_term s' w' t' + (if t' = t ∧ w' = w then 1 else 0) = count_term s w' t') ∧
      (∀ d' t', count_doc s' d' t' + (if d' = d ∧ t' = t then 1 else 0) = count_doc s d' t') ∧
      (∀ t', count_topic s' t' + (if t' = t then 1 else 0) = count_topic s t') ∧
      s'.doc_word_topic = s.doc_word_topic ∧ s'.rng_pos = s.rng_pos := by
  rcases hm : s.topic_term_count t with _ | m
  · simp [count_term, hm, emptyInner] at h1
  rcases hv : m w with _ | v
  · simp [count_term, hm, hv, emptyInner] at h1
  rcases hm2 : s.doc_topic_count d with _ | m2
  · simp [count_doc, hm2, emptyInner] at h2
  rcases hv2 : m2 t with _ | v2
  · simp [count_doc, hm2, hv2, emptyInner] at h2
  rcases hv3 : s.topic_count t with _ | v3
  · simp [count_topic, hv3] at h3
  have hv1 : 1 ≤ v := by simpa [count_term, hm, hv] using h1
  have hv21 : 1 ≤ v2 := by simpa [count_doc, hm2, hv2] using h2
  have hv31 : 1 ≤ v3 := by simpa [count_topic, hv3] using h3
  refine ⟨{ s with
      topic_term_count :=
        upd s.topic_term_count t (some (if v = 1 then upd m w none else upd m w (some (v - 1))))
      doc_topic_count :=
        upd s.doc_topic_count d (some (if v2 = 1 then upd m2 t none else upd m2 t (some (v2 - 1))))
      topic_count := if v3 = 1 then upd s.topic_count t none
                     else upd s.topic_count t (some (v3 - 1)) },
    by simp [decrease_counts, hm, hv, hm2, hv2, hv3], ?_, ?_, ?_, rfl, rfl⟩
  · intro w' t'
    by_cases ht : t' = t
    · by_cases hw : w' = w
      · subst ht; subst hw
        rcases eq_or_ne v 1 with h | h <;>
          simp [count_term, upd, hm, hv, h] <;> omega
      · subst ht
        rcases eq_or_ne v 1 with h | h <;>
          simp [count_term, upd, hm, hw, h]
    · simp [count_term, upd, ht]
  · intro d' t'
    by_cases hd : d' = d
    · by_cases ht : t' = t
      · subst hd; subst ht
        rcases eq_or_ne v2 1 with h | h <;>
          simp [count_doc, upd, hm2, hv2, h] <;> omega
      · subst hd
        rcases eq_or_ne v2 1 with h | h <;>
          simp [count_doc, upd, hm2, ht, h]
    · simp [count_doc, upd, hd]
  · intro t'
    by_cases ht : t' = t
    · subst ht
      rcases eq_or_ne v3 1 with h | h <;>
        simp [count_topic, upd, hv3, h] <;> omega
    · rcases eq_or_ne v3 1 with h | h <;> simp [count_topic, upd, ht, h]

/-- A state produced by a successful `decrease_counts` call: assignments and RNG are
untouched, and the topic-count change is the stated decrement whenever the old
counter was at least one. -/
theorem decrease_frame {s s' : GibbsState} {t w d : ℕ}
    (h : decrease_counts s t w d = some s') :
    s'.doc_word_topic = s.doc_word_topic ∧ s'.rng_pos = s.rng_pos := by
  rcases hm : s.topic_term_count t with _ | m <;> simp [decrease_counts, hm] at h
  rcases hv : m w with _ | v <;> simp [hv] at h
  rcases hm2 : s.doc_topic_count d with _ | m2 <;> simp [hm2] at h
  rcases hv2 : m2 t with _ | v2 <;> simp [hv2] at h
  rcases hv3 : s.topic_count t with _ | v3 <;> simp [hv3] at h
  exact ⟨by rw [← h], by rw [← h]⟩

@[simp] theorem count_term_setAssignment (s : GibbsState) (d n τ w' t' : ℕ) :
    count_term (setAssignment s d n τ) w' t' = count_term s w' t' := rfl

@[simp] theorem count_doc_setAssignment (s : GibbsState) (d n τ d' t' : ℕ) :
    count_doc (setAssignment s d n τ) d' t' = count_doc s d' t' := rfl

@[simp] theorem count_topic_setAssignment (s : GibbsState) (d n τ t' : ℕ) :
    count_topic (setAssignment s d n τ) t' = count_topic s t' := rfl

theorem dwt_setAssignment (s : GibbsState) (d n τ d' n' : ℕ) :
    (setAssignment s d n τ).doc_word_topic d' n'
      = if d' = d ∧ n' = n then τ else s.doc_word_topic d' n' := by
  by_cases hd : d' = d
  · by_cases hn : n' = n
    · subst hd; subst hn; simp [setAssignment, upd]
    · subst hd; simp [setAssignment, upd, hn]
  · simp [setAssignment, upd, hd]

@[simp] theorem count_term_rng (s : GibbsState) (k w' t' : ℕ) :
    count_term { s with rng_pos := k } w' t' = count_term s w' t' := rfl

@[simp] theorem count_doc_rng (s : GibbsState) (k d' t' : ℕ) :
    count_doc { s with rng_pos := k } d' t' = count_doc s d' t' := rfl

@[simp] theorem count_topic_rng (s : GibbsState) (k t' : ℕ) :
    count_topic { s with rng_pos := k } t' = count_topic s t' := rfl

theorem TopicSum_increase (p : LDAParams) (s : GibbsState) (t w d : ℕ)
    (ht : t < p.num_topics) :
    TopicSum p (increase_counts s t w d) = TopicSum p s + 1 := by
  unfold TopicSum
  rw [Finset.sum_congr rfl fun t' _ => count_topic_increase s t w d t']
  rw [Finset.sum_add_distrib, Finset.sum_ite_eq']
  simp [Finset.mem_range.mpr ht]

theorem TopicSum_decrease (p : LDAParams) {s s' : GibbsState} {t : ℕ}
    (ht : t < p.num_topics)
    (hpt : ∀ t', count_topic s' t' + (if t' = t then 1 else 0) = count_topic s t') :
    TopicSum p s' + 1 = TopicSum p s := by
  have h1 : ∑ t' ∈ Finset.range p.num_topics, (count_topic s' t' + if t' = t then 1 else 0)
      = ∑ t' ∈ Finset.range p.num_topics, count_topic s t' :=
    Finset.sum_congr rfl fun t' _ => hpt t'
  rw [Finset.sum_add_distrib, Finset.sum_ite_eq'] at h1
  simp only [Finset.mem_range.mpr ht, if_true] at h1
  exact h1

@[simp] theorem TopicSum_setAssignment (p : LDAParams) (s : GibbsState) (d n τ : ℕ) :
    TopicSum p (setAssignment s d n τ) = TopicSum p s := rfl

@[simp] theorem TopicSum_rng (p : LDAParams) (s : GibbsState) (k : ℕ) :
    TopicSum p { s with rng_pos := k } = TopicSum p s := rfl

/-! ## Fold bridges: the source's nested loops equal a flat fold over the tokens -/

theorem foldlM_congr_opt {α β : Type} {f g : β → α → Option β} (l : List α) (s : β)
    (h : ∀ s a, f s a = g s a) : l.foldlM f s = l.foldlM g s := by
  induction l generalizing s with
  | nil => rfl
  | cons a l ih =>
    simp only [List.foldlM_cons, h]
    cases g s a with
    | none => rfl
    | some s' => simpa using ih s'

theorem foldlM_flatMap_opt {α β γ : Type} (l : List α) (f : α → List γ)
    (g : β → γ → Option β) (s : β) :
    (l.flatMap f).foldlM g s = l.foldlM (fun s a => (f a).foldlM g s) s := by
  induction l generalizing s with
  | nil => rfl
  | cons a l ih =>
    rw [List.flatMap_cons, List.foldlM_append, List.foldlM_cons]
    cases (f a).foldlM g s with
    | none => rfl
    | some s' => simpa using ih s'

theorem foldlM_map_opt {α β γ : Type} (l : List α) (h : α → γ) (g : β → γ → Option β) (s : β) :
    (l.map h).foldlM g s = l.foldlM (fun s a => g s (h a)) s := by
  induction l generalizing s with
  | nil => rfl
  | cons a l ih =>
    simp only [List.map_cons, List.foldlM_cons]
    cases g s (h a) with
    | none => rfl
    | some s' => simpa using ih s'

/-- The innermost source loop over the `c` occurrences of one posting equals the
fold over the enumerated occurrence positions. -/
theorem range_fold_eq (p : LDAParams) (init : Bool) (d w : ℕ) :
    ∀ (c n₀ : ℕ) (s : GibbsState),
      (List.range c).foldlM (fun acc _ => resample_token p init d w acc) (s, n₀)
        = (((List.replicate c w).enumFrom n₀).foldlM
            (fun s nw => gibbsStep p init d nw.1 nw.2 s) s).map (fun s' => (s', n₀ + c)) := by
  intro c
  induction c with
  | zero => intro n₀ s; simp
  | succ c ih =>
    intro n₀ s
    rw [List.range_succ, List.foldlM_append, List.replicate_succ', List.enumFrom_append,
      List.foldlM_append, ih]
    rcases hX : ((List.replicate c w).enumFrom n₀).foldlM
        (fun s nw => gibbsStep p init d nw.1 nw.2 s) s with _ | s'
    · rw [hX]; rfl
    · rw [hX]
      simp only [Option.map_some', Option.bind_eq_bind, Option.some_bind,
        List.length_replicate, List.foldlM_cons, List.foldlM_nil, resample_token]
      rcases hg : gibbsStep p init d (n₀ + c) w s' with _ | s'' <;> simp [hg] <;> omega

/-- The postings loop of `process_doc`, started at token counter `n₀`, equals the
fold over the enumerated flattened occurrence list. -/
theorem postings_fold_eq (p : LDAParams) (init : Bool) (d : ℕ) :
    ∀ (ps : List (ℕ × ℕ)) (n₀ : ℕ) (s : GibbsState),
      ps.foldlM (process_posting p init d) (s, n₀)
        = (((ps.flatMap fun wc => List.replicate wc.2 wc.1).enumFrom n₀).foldlM
            (fun s nw => gibbsStep p init d nw.1 nw.2 s) s).map
            (fun s' => (s', n₀ + (ps.flatMap fun wc => List.replicate wc.2 wc.1).length)) := by
  intro ps
  induction ps with
  | nil => intro n₀ s; simp
  | cons wc ps ih =>
    intro n₀ s
    rw [List.foldlM_cons]
    show process_posting p init d (s, n₀) wc >>= _ = _
    rw [process_posting, range_fold_eq, List.flatMap_cons, List.enumFrom_append,
      List.foldlM_append]
    rcases hX : ((List.replicate wc.2 wc.1).enumFrom n₀).foldlM
        (fun s nw => gibbsStep p init d nw.1 nw.2 s) s with _ | s'
    · rw [hX]; rfl
    · rw [hX]
      simp only [Option.map_some', Option.bind_eq_bind, Option.some_bind,
        List.length_replicate]
      rw [ih]
      rcases hY : ((ps.flatMap fun wc => List.replicate wc.2 wc.1).enumFrom (n₀ + wc.2)).foldlM
          (fun s nw => gibbsStep p init d nw.1 nw.2 s) s' with _ | s''
      · rw [hY]; rfl
      · rw [hY]
        simp only [Option.map_some', Option.bind_eq_bind, Option.some_bind,
          List.length_append, List.length_replicate, List.length_flatMap]
        congr 2
        omega

/-- `process_doc` equals the fold over the document's enumerated token sequence. -/
theorem process_doc_eq (p : LDAParams) (init : Bool) (s : GibbsState) (d : ℕ) :
    process_doc p init s d
      = ((docTokens p d).enum).foldlM (fun s nw => gibbsStep p init d nw.1 nw.2 s) s := by
  unfold process_doc
  rw [postings_fold_eq, List.enum_eq_enumFrom]
  have hdt : ((p.counts d).flatMap fun wc => List.replicate wc.2 wc.1) = docTokens p d := rfl
  rw [hdt]
  rcases hX : (List.enumFrom 0 (docTokens p d)).foldlM
      (fun s nw => gibbsStep p init d nw.1 nw.2 s) s with _ | s' <;>
    simp [hX]

/-- The sweep of `perform_iteration` equals the flat fold over the corpus tokens. -/
theorem perform_iteration_eq_sweep (p : LDAParams) (init : Bool) (s : GibbsState) :
    perform_iteration p init s = sweep p init s := by
  unfold perform_iteration sweep tokenList
  rw [foldlM_flatMap_opt]
  refine foldlM_congr_opt _ _ fun s d => ?_
  rw [foldlM_map_opt, process_doc_eq]
  rfl

/-! ## The sweep inductions -/

theorem beq_ite_and (x y u v : ℕ) :
    (if (x == y && u == v) then (1 : ℕ) else 0) = if v = u ∧ y = x then 1 else 0 := by
  simp only [Bool.and_eq_true, beq_iff_eq]
  exact if_congr ⟨fun h => ⟨h.2.symm, h.1.symm⟩, fun h => ⟨h.2.symm, h.1.symm⟩⟩ rfl rfl

theorem beq_ite_and' (x y u v : ℕ) :
    (if (x == y && u == v) then (1 : ℕ) else 0) = if y = x ∧ v = u then 1 else 0 := by
  simp only [Bool.and_eq_true, beq_iff_eq]
  exact if_congr ⟨fun h => ⟨h.1.symm, h.2.symm⟩, fun h => ⟨h.1.symm, h.2.symm⟩⟩ rfl rfl

theorem beq_ite_single (u v : ℕ) :
    (if (u == v) then (1 : ℕ) else 0) = if v = u then 1 else 0 := by
  simp only [beq_iff_eq]
  exact if_congr ⟨fun h => h.symm, fun h => h.symm⟩ rfl rfl

/-- The initialization sweep over a token suffix `rs` with pairwise-distinct
positions: it always succeeds, adds exactly the counts of the freshly sampled
assignments to the tables, touches no other assignment, samples only valid
topic ids, and adds one token per step to the topic-count total. -/
theorem flat_init (p : LDAParams) (hdraw : ∀ ws i, p.draw ws i < p.num_topics) :
    ∀ (rs : List (ℕ × ℕ × ℕ)) (s : GibbsState), PosNodup rs →
      ∃ s', rs.foldlM (flatStep p true) s = some s' ∧
        (∀ w t, count_term s' w t = count_term s w t + countTT rs s'.doc_word_topic w t) ∧
        (∀ d t, count_doc s' d t = count_doc s d t + countDT rs s'.doc_word_topic d t) ∧
        (∀ t, count_topic s' t = count_topic s t + countT rs s'.doc_word_topic t) ∧
        (∀ d n, (d, n) ∉ rs.map (fun tk => (tk.1, tk.2.1)) →
          s'.doc_word_topic d n = s.doc_word_topic d n) ∧
        (∀ tk ∈ rs, s'.doc_word_topic tk.1 tk.2.1 < p.num_topics) ∧
        TopicSum p s' = TopicSum p s + rs.length := by
  intro rs
  induction rs with
  | nil =>
    intro s _
    exact ⟨s, rfl, by simp [countTT], by simp [countDT], by simp [countT],
      fun d n _ => rfl, by simp, by simp⟩
  | cons tk rs ih =>
    intro s hnd
    obtain ⟨d, n, w⟩ := tk
    have hnds : ((d, n) ∉ rs.map fun tk => (tk.1, tk.2.1)) ∧ PosNodup rs := by
      have h := hnd
      unfold PosNodup at h
      simp only [List.map_cons] at h
      exact ⟨(List.nodup_cons.mp h).1, (List.nodup_cons.mp h).2⟩
    set τ := p.draw (weights p s w d) s.rng_pos with hτ
    set sA := increase_counts (setAssignment { s with rng_pos := s.rng_pos + 1 } d n τ) τ w d
      with hsA
    obtain ⟨s', hfold, hTT, hDT, hT, hdwt, hbd, hTS⟩ := ih sA hnds.2
    have hdwtA : ∀ d' n', sA.doc_word_topic d' n'
        = if d' = d ∧ n' = n then τ else s.doc_word_topic d' n' := by
      intro d' n'
      rw [hsA]
      rw [dwt_increase, dwt_setAssignment]
    have hdn : s'.doc_word_topic d n = τ := by
      rw [hdwt d n hnds.1, hdwtA]
      simp
    have hcTT : ∀ w' t', count_term sA w' t'
        = count_term s w' t' + if t' = τ ∧ w' = w then 1 else 0 := by
      intro w' t'
      rw [hsA, count_term_increase, count_term_setAssignment, count_term_rng]
    have hcDT : ∀ d' t', count_doc sA d' t'
        = count_doc s d' t' + if d' = d ∧ t' = τ then 1 else 0 := by
      intro d' t'
      rw [hsA, count_doc_increase, count_doc_setAssignment, count_doc_rng]
    have hcT : ∀ t', count_topic sA t'
        = count_topic s t' + if t' = τ then 1 else 0 := by
      intro t'
      rw [hsA, count_topic_increase, count_topic_setAssignment, count_topic_rng]
    refine ⟨s', ?_, ?_, ?_, ?_, ?_, ?_, ?_⟩
    · rw [List.foldlM_cons]
      have hstep : flatStep p true s (d, n, w) = some sA := rfl
      rw [hstep]
      simpa using hfold
    · intro w' t'
      rw [hTT w' t', hcTT w' t']
      unfold countTT
      rw [List.countP_cons]
      dsimp only
      rw [hdn, beq_ite_and]
      omega
    · intro d' t'
      rw [hDT d' t', hcDT d' t']
      unfold countDT
      rw [List.countP_cons]
      dsimp only
      rw [hdn, beq_ite_and']
      omega
    · intro t'
      rw [hT t', hcT t']
      unfold countT
      rw [List.countP_cons]
      dsimp only
      rw [hdn, beq_ite_single]
      omega
    · intro d₀ n₀ hmem
      simp only [List.map_cons, List.mem_cons, not_or] at hmem
      rw [hdwt d₀ n₀ hmem.2, hdwtA]
      have : ¬(d₀ = d ∧ n₀ = n) := by
        intro hc
        exact hmem.1 (by rw [hc.1, hc.2])
      rw [if_neg this]
    · intro tk htk
      rcases List.mem_cons.mp htk with h | h
      · rw [h]
        dsimp only
        rw [hdn, hτ]
        exact hdraw _ _
      · exact hbd tk h
    · rw [hTS]
      have hTA : TopicSum p sA = TopicSum p s + 1 := by
        rw [hsA, TopicSum_increase p _ τ w d (by rw [hτ]; exact hdraw _ _),
          TopicSum_setAssignment, TopicSum_rng]
      rw [hTA, List.length_cons]
      omega

theorem countTT_congr {rs : List (ℕ × ℕ × ℕ)} {f g : ℕ → ℕ → ℕ}
    (h : ∀ tk ∈ rs, f tk.1 tk.2.1 = g tk.1 tk.2.1) (w t : ℕ) :
    countTT rs f w t = countTT rs g w t :=
  List.countP_congr fun tk htk => by rw [h tk htk]

theorem countDT_congr {rs : List (ℕ × ℕ × ℕ)} {f g : ℕ → ℕ → ℕ}
    (h : ∀ tk ∈ rs, f tk.1 tk.2.1 = g tk.1 tk.2.1) (d t : ℕ) :
    countDT rs f d t = countDT rs g d t :=
  List.countP_congr fun tk htk => by rw [h tk htk]

theorem countT_congr {rs : List (ℕ × ℕ × ℕ)} {f g : ℕ → ℕ → ℕ}
    (h : ∀ tk ∈ rs, f tk.1 tk.2.1 = g tk.1 tk.2.1) (t : ℕ) :
    countT rs f t = countT rs g t :=
  List.countP_congr fun tk htk => by rw [h tk htk]

/-- A resampling sweep over a token suffix `rs` with pairwise-distinct positions,
from a state whose tables dominate the counts induced by `rs`: every decrement
succeeds, the tables change exactly by replacing the old assignment counts of `rs`
with the new ones, no other assignment is touched, all sampled topics are valid,
and the topic-count total is preserved. -/
theorem flat_iter (p : LDAParams) (hdraw : ∀ ws i, p.draw ws i < p.num_topics) :
    ∀ (rs : List (ℕ × ℕ × ℕ)) (s : GibbsState), PosNodup rs →
      (∀ w t, countTT rs s.doc_word_topic w t ≤ count_term s w t) →
      (∀ d t, countDT rs s.doc_word_topic d t ≤ count_doc s d t) →
      (∀ t, countT rs s.doc_word_topic t ≤ count_topic s t) →
      (∀ tk ∈ rs, s.doc_word_topic tk.1 tk.2.1 < p.num_topics) →
      ∃ s', rs.foldlM (flatStep p false) s = some s' ∧
        (∀ w t, count_term s' w t + countTT rs s.doc_word_topic w t
          = count_term s w t + countTT rs s'.doc_word_topic w t) ∧
        (∀ d t, count_doc s' d t + countDT rs s.doc_word_topic d t
          = count_doc s d t + countDT rs s'.doc_word_topic d t) ∧
        (∀ t, count_topic s' t + countT rs s.doc_word_topic t
          = count_topic s t + countT rs s'.doc_word_topic t) ∧
        (∀ d n, (d, n) ∉ rs.map (fun tk => (tk.1, tk.2.1)) →
          s'.doc_word_topic d n = s.doc_word_topic d n) ∧
        (∀ tk ∈ rs, s'.doc_word_topic tk.1 tk.2.1 < p.num_topics) ∧
        TopicSum p s' = TopicSum p s := by
  intro rs
  induction rs with
  | nil =>
    intro s _ _ _ _ _
    exact ⟨s, rfl, by simp [countTT], by simp [countDT], by simp [countT],
      fun d n _ => rfl, by simp, rfl⟩
  | cons tk rs ih =>
    intro s hnd hTTh hDTh hTh hbdh
    obtain ⟨d, n, w⟩ := tk
    have hnds : ((d, n) ∉ rs.map fun tk => (tk.1, tk.2.1)) ∧ PosNodup rs := by
      have h := hnd
      unfold PosNodup at h
      simp only [List.map_cons] at h
      exact ⟨(List.nodup_cons.mp h).1, (List.nodup_cons.mp h).2⟩
    have hexpTT : ∀ (f : ℕ → ℕ → ℕ) w' t', countTT ((d, n, w) :: rs) f w' t'
        = countTT rs f w' t' + if t' = f d n ∧ w' = w then 1 else 0 := by
      intro f w' t'
      unfold countTT
      rw [List.countP_cons]
      dsimp only
      rw [beq_ite_and]
    have hexpDT : ∀ (f : ℕ → ℕ → ℕ) d' t', countDT ((d, n, w) :: rs) f d' t'
        = countDT rs f d' t' + if d' = d ∧ t' = f d n then 1 else 0 := by
      intro f d' t'
      unfold countDT
      rw [List.countP_cons]
      dsimp only
      rw [beq_ite_and']
    have hexpT : ∀ (f : ℕ → ℕ → ℕ) t', countT ((d, n, w) :: rs) f t'
        = countT rs f t' + if t' = f d n then 1 else 0 := by
      intro f t'
      unfold countT
      rw [List.countP_cons]
      dsimp only
      rw [beq_ite_single]
    -- the current token contributes one to each of the three counters it addresses
    have hTT1 : 1 ≤ count_term s w (s.doc_word_topic d n) := by
      have := hTTh w (s.doc_word_topic d n)
      rw [hexpTT] at this
      simp at this
      omega
    have hDT1 : 1 ≤ count_doc s d (s.doc_word_topic d n) := by
      have := hDTh d (s.doc_word_topic d n)
      rw [hexpDT] at this
      simp at this
      omega
    have hT1 : 1 ≤ count_topic s (s.doc_word_topic d n) := by
      have := hTh (s.doc_word_topic d n)
      rw [hexpT] at this
      simp at this
      omega
    obtain ⟨sdec, hdec, hdTT, hdDT, hdT, hddwt, hdrng⟩ :=
      decrease_spec s (s.doc_word_topic d n) w d hTT1 hDT1 hT1
    set τ := p.draw (weights p sdec w d) sdec.rng_pos with hτ
    set sA := increase_counts (setAssignment { sdec with rng_pos := sdec.rng_pos + 1 } d n τ)
      τ w d with hsA
    have hstep : flatStep p false s (d, n, w) = some sA := by
      unfold flatStep gibbsStep
      dsimp only
      rw [hdec]
      rfl
    have hdwtA : ∀ d' n', sA.doc_word_topic d' n'
        = if d' = d ∧ n' = n then τ else s.doc_word_topic d' n' := by
      intro d' n'
      rw [hsA, dwt_increase, dwt_setAssignment, hddwt]
    have hagree : ∀ tk' ∈ rs, sA.doc_word_topic tk'.1 tk'.2.1
        = s.doc_word_topic tk'.1 tk'.2.1 := by
      intro tk' htk'
      rw [hdwtA]
      have : ¬(tk'.1 = d ∧ tk'.2.1 = n) := by
        intro hc
        exact hnds.1 (by
          have : (tk'.1, tk'.2.1) = (d, n) := by rw [hc.1, hc.2]
          rw [← this]
          exact List.mem_map_of_mem _ htk')
      rw [if_neg this]
    have hcTT : ∀ w' t', count_term sA w' t'
        = count_term sdec w' t' + if t' = τ ∧ w' = w then 1 else 0 := by
      intro w' t'
      rw [hsA, count_term_increase, count_term_setAssignment, count_term_rng]
    have hcDT : ∀ d' t', count_doc sA d' t'
        = count_doc sdec d' t' + if d' = d ∧ t' = τ then 1 else 0 := by
      intro d' t'
      rw [hsA, count_doc_increase, count_doc_setAssignment, count_doc_rng]
    have hcT : ∀ t', count_topic sA t'
        = count_topic sdec t' + if t' = τ then 1 else 0 := by
      intro t'
      rw [hsA, count_topic_increase, count_topic_setAssignment, count_topic_rng]
    obtain ⟨s', hfold, hTT, hDT, hT, hdwt, hbd, hTS⟩ := ih sA hnds.2
      (by
        intro w' t'
        rw [countTT_congr hagree w' t']
        have h1 := hTTh w' t'
        rw [hexpTT] at h1
        have h2 := hdTT w' t'
        have h3 := hcTT w' t'
        omega)
      (by
        intro d' t'
        rw [countDT_congr hagree d' t']
        have h1 := hDTh d' t'
        rw [hexpDT] at h1
        have h2 := hdDT d' t'
        have h3 := hcDT d' t'
        omega)
      (by
        intro t'
        rw [countT_congr hagree t']
        have h1 := hTh t'
        rw [hexpT] at h1
        have h2 := hdT t'
        have h3 := hcT t'
        omega)
      (by
        intro tk' htk'
        rw [hagree tk' htk']
        exact hbdh tk' (List.mem_cons_of_mem _ htk'))
    have hdnA : sA.doc_word_topic d n = τ := by
      rw [hdwtA]
      simp
    have hdn : s'.doc_word_topic d n = τ := by
      rw [hdwt d n hnds.1, hdnA]
    refine ⟨s', ?_, ?_, ?_, ?_, ?_, ?_, ?_⟩
    · rw [List.foldlM_cons, hstep]
      simpa using hfold
    · intro w' t'
      rw [hexpTT s.doc_word_topic w' t', hexpTT s'.doc_word_topic w' t', hdn]
      have h1 := hTT w' t'
      rw [countTT_congr hagree w' t'] at h1
      have h2 := hdTT w' t'
      have h3 := hcTT w' t'
      omega
    · intro d' t'
      rw [hexpDT s.doc_word_topic d' t', hexpDT s'.doc_word_topic d' t', hdn]
      have h1 := hDT d' t'
      rw [countDT_congr hagree d' t'] at h1
      have h2 := hdDT d' t'
      have h3 := hcDT d' t'
      omega
    · intro t'
      rw [hexpT s.doc_word_topic t', hexpT s'.doc_word_topic t', hdn]
      have h1 := hT t'
      rw [countT_congr hagree t'] at h1
      have h2 := hdT t'
      have h3 := hcT t'
      omega
    · intro d₀ n₀ hmem
      simp only [List.map_cons, List.mem_cons, not_or] at hmem
      rw [hdwt d₀ n₀ hmem.2, hdwtA]
      have : ¬(d₀ = d ∧ n₀ = n) := by
        intro hc
        exact hmem.1 (by rw [hc.1, hc.2])
      rw [if_neg this]
    · intro tk' htk'
      rcases List.mem_cons.mp htk' with h | h
      · rw [h]
        dsimp only
        rw [hdn, hτ]
        exact hdraw _ _
      · exact hbd tk' h
    · have hold : s.doc_word_topic d n < p.num_topics := by
        have := hbdh (d, n, w) (List.mem_cons_self _ _)
        simpa using this
      have hTdec : TopicSum p sdec + 1 = TopicSum p s := TopicSum_decrease p hold hdT
      have hTA : TopicSum p sA = TopicSum p sdec + 1 := by
        rw [hsA, TopicSum_increase p _ τ w d (by rw [hτ]; exact hdraw _ _),
          TopicSum_setAssignment, TopicSum_rng]
      rw [hTS, hTA]
      omega

/-! ## Corpus-level plumbing -/

theorem tokenList_posNodup (p : LDAParams) (hnodup : p.docs.Nodup) :
    PosNodup (tokenList p) := by
  unfold PosNodup tokenList
  rw [List.map_flatMap, List.nodup_flatMap]
  constructor
  · intro d _
    rw [List.map_map]
    have he : ((fun tk : ℕ × ℕ × ℕ => (tk.1, tk.2.1)) ∘ fun nw : ℕ × ℕ => (d, nw.1, nw.2))
        = (fun i : ℕ => (d, i)) ∘ Prod.fst := rfl
    rw [he, ← List.map_map, List.enum_map_fst]
    refine List.Nodup.map ?_ (List.nodup_range _)
    intro a b hab
    simpa using hab
  · have : ∀ (d₁ d₂ : ℕ), d₁ ≠ d₂ →
        (List.Disjoint on fun d => List.map ((fun tk : ℕ × ℕ × ℕ => (tk.1, tk.2.1)) ∘
          fun nw : ℕ × ℕ => (d, nw.1, nw.2)) (docTokens p d).enum) d₁ d₂ := by
      intro d₁ d₂ hne a ha1 ha2
      simp only [Function.onFun, List.mem_map, Function.comp] at ha1 ha2
      obtain ⟨nw1, _, h1⟩ := ha1
      obtain ⟨nw2, _, h2⟩ := ha2
      apply hne
      rw [← h1] at h2
      exact (Prod.mk.injEq _ _ _ _).mp h2 |>.1.symm
    have hmm := hnodup
    refine List.Pairwise.imp ?_ hmm
    intro d₁ d₂ hne
    simp only [Function.onFun, List.map_map]
    exact this d₁ d₂ hne

@[simp] theorem count_term_fresh (w t : ℕ) : count_term fresh_state w t = 0 := rfl

@[simp] theorem count_doc_fresh (d t : ℕ) : count_doc fresh_state d t = 0 := rfl

@[simp] theorem count_topic_fresh (t : ℕ) : count_topic fresh_state t = 0 := rfl

@[simp] theorem TopicSum_fresh (p : LDAParams) : TopicSum p fresh_state = 0 := by
  simp [TopicSum]

/-- The index contract `doc_size(d) = Σ frequencies of postings(d)` makes the token
list as long as the corpus token count. -/
theorem tokenList_length (p : LDAParams)
    (hsize : ∀ d ∈ p.docs, p.doc_size d = (docTokens p d).length) :
    (tokenList p).length = totalSize p := by
  unfold tokenList totalSize
  rw [List.length_flatMap]
  congr 1
  refine List.map_congr_left fun d hd => ?_
  simp [hsize d hd]

/-- The initialization sweep from the construction state always succeeds and leaves
the tables consistent with the assignments, all assignments valid, and the
topic-count total equal to the token count. -/
theorem init_fresh (p : LDAParams) (hdraw : ∀ ws i, p.draw ws i < p.num_topics)
    (hnodup : p.docs.Nodup) :
    ∃ s0, init_sweep p fresh_state = some s0 ∧ Consistent p s0 ∧ BoundedTok p s0 ∧
      TopicSum p s0 = (tokenList p).length := by
  obtain ⟨s0, hfold, hTT, hDT, hT, _, hbd, hTS⟩ :=
    flat_init p hdraw (tokenList p) fresh_state (tokenList_posNodup p hnodup)
  refine ⟨s0, ?_, ⟨?_, ?_, ?_⟩, hbd, ?_⟩
  · rw [init_sweep, perform_iteration_eq_sweep]
    exact hfold
  · intro w t
    rw [hTT w t, count_term_fresh]
    omega
  · intro d t
    rw [hDT d t, count_doc_fresh]
    omega
  · intro t
    rw [hT t, count_topic_fresh]
    omega
  · rw [hTS, TopicSum_fresh]
    omega

/-- A resampling iteration from a consistent state with valid assignments always
succeeds and preserves consistency, validity, and the topic-count total. -/
theorem iter_preserves (p : LDAParams) (hdraw : ∀ ws i, p.draw ws i < p.num_topics)
    (hnodup : p.docs.Nodup) (s : GibbsState) (hcons : Consistent p s)
    (hbd : BoundedTok p s) :
    ∃ s', perform_iteration p false s = some s' ∧ Consistent p s' ∧ BoundedTok p s' ∧
      TopicSum p s' = TopicSum p s := by
  obtain ⟨hC1, hC2, hC3⟩ := hcons
  obtain ⟨s', hfold, hTT, hDT, hT, _, hbd', hTS⟩ :=
    flat_iter p hdraw (tokenList p) s (tokenList_posNodup p hnodup)
      (fun w t => le_of_eq (hC1 w t).symm) (fun d t => le_of_eq (hC2 d t).symm)
      (fun t => le_of_eq (hC3 t).symm) hbd
  refine ⟨s', ?_, ⟨?_, ?_, ?_⟩, hbd', hTS⟩
  · rw [perform_iteration_eq_sweep]
    exact hfold
  · intro w t
    have h1 := hTT w t
    have h2 := hC1 w t
    omega
  · intro d t
    have h1 := hDT d t
    have h2 := hC2 d t
    omega
  · intro t
    have h1 := hT t
    have h2 := hC3 t
    omega

/-- The iteration loop of `run` from a consistent state with valid assignments
always returns, preserving the invariants and the topic-count total. -/
theorem run_loop_inv (p : LDAParams) (hdraw : ∀ ws i, p.draw ws i < p.num_topics)
    (hnodup : p.docs.Nodup) (conv : ℚ) :
    ∀ (fuel : ℕ) (L : ℚ) (s : GibbsState) (acc : List ℚ), Consistent p s → BoundedTok p s →
      ∃ s' ls st, run_loop p conv fuel L s acc = some (s', ls, st) ∧
        Consistent p s' ∧ BoundedTok p s' ∧ TopicSum p s' = TopicSum p s := by
  intro fuel
  induction fuel with
  | zero =>
    intro L s acc hc hb
    exact ⟨s, acc.reverse, RunStatus.Exhausted, rfl, hc, hb, rfl⟩
  | succ fuel ih =>
    intro L s acc hc hb
    obtain ⟨s', hit, hc', hb', hts⟩ := iter_preserves p hdraw hnodup s hc hb
    by_cases hr : |(L - corpus_likelihood p s') / L| ≤ conv
    · refine ⟨s', ((corpus_likelihood p s' :: acc).reverse), RunStatus.Converged, ?_, hc', hb', hts⟩
      rw [run_loop, hit]
      simp only [Option.some_bind]
      rw [if_pos hr]
    · obtain ⟨s'', ls, st, heq, hc'', hb'', hts'⟩ :=
        ih (corpus_likelihood p s') s' (corpus_likelihood p s' :: acc) hc' hb'
      refine ⟨s'', ls, st, ?_, hc'', hb'', by rw [hts']; exact hts⟩
      rw [run_loop, hit]
      simp only [Option.some_bind]
      rw [if_neg hr]
      exact heq

/-- `run` from the construction state always returns, with the invariants holding in
the final state and the topic-count total equal to the corpus token count. -/
theorem run_total (p : LDAParams) (hdraw : ∀ ws i, p.draw ws i < p.num_topics)
    (hnodup : p.docs.Nodup) (iters : ℕ) (conv : ℚ) :
    ∃ out, run p iters conv fresh_state = some out ∧
      Consistent p out.1 ∧ BoundedTok p out.1 ∧ TopicSum p out.1 = (tokenList p).length := by
  obtain ⟨s0, hinit, hc0, hb0, hts0⟩ := init_fresh p hdraw hnodup
  obtain ⟨s', ls, st, hloop, hc', hb', hts'⟩ :=
    run_loop_inv p hdraw hnodup conv iters (corpus_likelihood p s0) s0 [] hc0 hb0
  refine ⟨(s', ls, st), ?_, hc', hb', by rw [hts', hts0]⟩
  rw [run, hinit]
  simp only [Option.some_bind]
  exact hloop

/-! ## Likelihood folds as sums -/

theorem foldl_add_q {α : Type} (l : List α) (g : α → ℚ) (a : ℚ) :
    l.foldl (fun acc x => acc + g x) a = a + (l.map g).sum := by
  induction l generalizing a with
  | nil => simp
  | cons x l ih =>
    rw [List.foldl_cons, ih, List.map_cons, List.sum_cons]
    ring

theorem foldl_congr_q {α : Type} {f g : ℚ → α → ℚ} (l : List α) (a : ℚ)
    (h : ∀ acc x, f acc x = g acc x) : l.foldl f a = l.foldl g a := by
  induction l generalizing a with
  | nil => rfl
  | cons x l ih =>
    rw [List.foldl_cons, List.foldl_cons, h, ih]

/-! ## Claim theorems -/

/-- C1.  On a resampling iteration (`init = false`, the `k ≥ 1` case), the driver
performs, for each document of `docs()` in order and for each occurrence of its
token sequence with document-local index `n`, exactly the spec's five-step sequence:
read the old assignment, decrease it, sample from the decremented counts, store the
new assignment at position `n`, and increase the new counts — in that order, the
decrement preceding the sample. -/
theorem C1_iteration_order (p : LDAParams) (s : GibbsState) :
    perform_iteration p false s = specIteration p s := by
  unfold perform_iteration specIteration
  refine foldlM_congr_opt _ _ fun s d => ?_
  rw [process_doc_eq]
  exact foldlM_congr_opt _ _ fun s nw => rfl

/-- C4.  `corpus_likelihood` computes exactly the spec's displayed formula, with the
summation nested topics outermost, documents next, postings innermost, in the
iteration order of `docs()` and `postings()`. -/
theorem C4_likelihood_formula (p : LDAParams) (s : GibbsState) :
    corpus_likelihood p s = corpus_likelihood_spec p s := by
  unfold corpus_likelihood corpus_likelihood_spec
  have hdoc : ∀ (j : ℕ) (acc : ℚ),
      (p.docs.foldl
        (fun acc2 d => (p.counts d).foldl
          (fun acc3 fr => acc3 + (fr.2 : ℚ) * p.lgamma ((count_term s fr.1 j : ℚ) + p.beta))
          acc2)
        acc)
      = acc + (p.docs.map fun d => ((p.counts d).map fun fr =>
          (fr.2 : ℚ) * p.lgamma ((count_term s fr.1 j : ℚ) + p.beta)).sum).sum := by
    intro j acc
    rw [foldl_congr_q p.docs acc fun acc2 d => foldl_add_q (p.counts d) _ acc2]
    rw [foldl_add_q]
  have hstep : ∀ (acc : ℚ) (j : ℕ),
      (p.docs.foldl
        (fun acc2 d => (p.counts d).foldl
          (fun acc3 fr => acc3 + (fr.2 : ℚ) * p.lgamma ((count_term s fr.1 j : ℚ) + p.beta))
          acc2)
        acc)
      - p.lgamma ((count_topic s j : ℚ) + (p.num_words : ℚ) * p.beta)
      = acc + (((p.docs.map fun d => ((p.counts d).map fun fr =>
            (fr.2 : ℚ) * p.lgamma ((count_term s fr.1 j : ℚ) + p.beta)).sum).sum)
          - p.lgamma ((count_topic s j : ℚ) + (p.num_words : ℚ) * p.beta)) := by
    intro acc j
    rw [hdoc j acc]
    ring
  rw [foldl_congr_q (List.range p.num_topics) _ hstep]
  rw [foldl_add_q]

/-- C9 counterexample.  Construction with `α = β = -1` (both ≤ 0) succeeds and
produces a sampler object: the `lda_gibbs` constructor stores `alpha_` and `beta_`
without any check, so not every invalid configuration fails at construction. -/
theorem C9_counterexample :
    lda_gibbs_construct ⟨1, 3⟩ 2 (-1) (-1) 0
      = Except.ok ⟨⟨2, 3, 1⟩, -1, -1, 0⟩ := by
  rfl

/-- C9 (amended).  Construction fails with a configuration error exactly for
K = 0, V = 0 or D = 0 (checked by the spec-modelled base constructor); the
hyperparameters `α` and `β` are never validated, so the failure condition does not
depend on them and a sampler object is produced for any `α`, `β`. -/
theorem C9_construction_checks (idx : IndexInfo) (K : ℕ) (alpha beta : ℚ) (e : ℕ) :
    (∃ err, lda_gibbs_construct idx K alpha beta e = Except.error err)
      ↔ (K = 0 ∨ idx.num_terms = 0 ∨ idx.num_docs = 0) := by
  unfold lda_gibbs_construct lda_model_construct
  by_cases h1 : K = 0 <;> by_cases h2 : idx.num_terms = 0 <;>
    by_cases h3 : idx.num_docs = 0 <;>
    simp [h1, h2, h3, Except.map]

/-- C8.  At a reachable failing input (an unvalidated `β = 0` configuration, with
term 0 assigned nowhere while both topic counts are positive), every one of the K
unnormalized weights computed by `sample_topic` is exactly zero; the source then
hands this all-zero vector directly to `std::discrete_distribution`, which has the
precondition that the weight sum be positive — there is no uniform fallback and no
warning in the code. -/
theorem C8_all_zero_weights :
    weights zeroWeightParams zeroWeightState 0 0 = [0, 0] := by
  have hz : ∀ t, compute_probability zeroWeightParams zeroWeightState 0 0 t = 0 := by
    intro t
    unfold compute_probability compute_term_topic_probability
    have h1 : count_term zeroWeightState 0 t = 0 := by
      by_cases ht1 : t = 1
      · subst ht1; rfl
      · by_cases ht0 : t = 0
        · subst ht0; rfl
        · simp [count_term, zeroWeightState, increase_counts, fresh_state, upd,
            emptyInner, ht1, ht0]
    rw [h1]
    have hb : zeroWeightParams.beta = 0 := rfl
    rw [hb]
    norm_num
  have h2 : List.range zeroWeightParams.num_topics = [0, 1] := rfl
  unfold weights
  rw [h2]
  simp [hz]

/-- C5 counterexample.  Two runs with identical caller-supplied arguments (same
index contents, same `K`, `α`, `β`, same iteration budget and threshold) produce
different final topic assignments when the `std::random_device` value drawn inside
the constructor differs — and the constructor in the source offers the caller no
seed parameter with which to fix it. -/
theorem C5_counterexample :
    (run (entropyParams 0) 0 1 fresh_state).map (fun out => out.1.doc_word_topic 0 0)
      ≠ (run (entropyParams 1) 0 1 fresh_state).map (fun out => out.1.doc_word_topic 0 0) := by
  decide

/-- C5 (amended).  The sampler is deterministic in the record of all run inputs:
two parameter records that agree on the model parameters, the index contents, the
`lgamma` implementation and the RNG draw stream produce identical `run` results
(final state, hence final assignments, and the per-iteration log-likelihood
sequence).  Reproducibility therefore holds whenever the RNG stream is fixed, but
the constructor seeds that stream from a non-deterministic `std::random_device`
draw and exposes no explicit-seed mode to callers. -/
theorem C5_determinism (p q : LDAParams)
    (h1 : p.num_topics = q.num_topics) (h2 : p.num_words = q.num_words)
    (h3 : p.alpha = q.alpha) (h4 : p.beta = q.beta) (h5 : p.docs = q.docs)
    (h6 : p.counts = q.counts) (h7 : p.doc_size = q.doc_size)
    (h8 : p.lgamma = q.lgamma) (h9 : p.draw = q.draw)
    (iters : ℕ) (conv : ℚ) (s : GibbsState) :
    run p iters conv s = run q iters conv s := by
  cases p
  cases q
  dsimp only at h1 h2 h3 h4 h5 h6 h7 h8 h9
  subst h1; subst h2; subst h3; subst h4; subst h5; subst h6; subst h7; subst h8; subst h9
  rfl

/-- C5 witness: the determinism theorem applied at a concrete parameter record. -/
theorem C5_determinism_witness :
    run (entropyParams 0) 1 1 fresh_state = run (entropyParams 0) 1 1 fresh_state :=
  C5_determinism (entropyParams 0) (entropyParams 0) rfl rfl rfl rfl rfl rfl rfl rfl rfl
    1 1 fresh_state

theorem upd_upd_same {α : Type} (f : ℕ → α) (k : ℕ) (a b : α) :
    upd (upd f k a) k b = upd f k b := by
  funext k'
  by_cases h : k' = k <;> simp [upd, h]

theorem upd_eq_self {α : Type} {f : ℕ → α} {k : ℕ} {a : α} (h : f k = a) :
    upd f k a = f := by
  funext k'
  by_cases hk : k' = k
  · subst hk; simp [upd, h]
  · simp [upd, hk]

/-- Incrementing the key that an erase-on-zero decrement just touched restores the
inner map exactly. -/
theorem upd_restore {m : ℕ → Option ℕ} {k v : ℕ} (hk : m k = some v) (hv : 1 ≤ v) :
    upd (if v = 1 then upd m k none else upd m k (some (v - 1))) k
      (some (((if v = 1 then upd m k none else upd m k (some (v - 1))) k).getD 0 + 1))
      = m := by
  funext k'
  by_cases hk' : k' = k
  · subst hk'
    rcases eq_or_ne v 1 with h | h
    · subst h; simp [upd, hk]
    · simp [upd, hk, h]
      omega
  · rcases eq_or_ne v 1 with h | h <;> simp [upd, hk', h]

/-- C6.  For any (t, w, d) with all three addressed counters at least one,
`decrease` followed by `increase` with the same keys restores the entire state —
all three count tables exactly, including key presence (an entry erased on the
decrement to zero is re-created by the increment), with assignments and RNG
untouched. -/
theorem C6_decrease_increase_id (s : GibbsState) (t w d : ℕ)
    (h1 : 1 ≤ count_term s w t) (h2 : 1 ≤ count_doc s d t) (h3 : 1 ≤ count_topic s t) :
    (decrease_counts s t w d).map (fun s' => increase_counts s' t w d) = some s := by
  rcases hm : s.topic_term_count t with _ | m
  · simp [count_term, hm, emptyInner] at h1
  rcases hv : m w with _ | v
  · simp [count_term, hm, hv, emptyInner] at h1
  rcases hm2 : s.doc_topic_count d with _ | m2
  · simp [count_doc, hm2, emptyInner] at h2
  rcases hv2 : m2 t with _ | v2
  · simp [count_doc, hm2, hv2, emptyInner] at h2
  rcases hv3 : s.topic_count t with _ | v3
  · simp [count_topic, hv3] at h3
  have hv1 : 1 ≤ v := by simpa [count_term, hm, hv] using h1
  have hv21 : 1 ≤ v2 := by simpa [count_doc, hm2, hv2] using h2
  have hv31 : 1 ≤ v3 := by simpa [count_topic, hv3] using h3
  have hdec : decrease_counts s t w d = some { s with
      topic_term_count := upd s.topic_term_count t
        (some (if v = 1 then upd m w none else upd m w (some (v - 1))))
      doc_topic_count := upd s.doc_topic_count d
        (some (if v2 = 1 then upd m2 t none else upd m2 t (some (v2 - 1))))
      topic_count := if v3 = 1 then upd s.topic_count t none
                     else upd s.topic_count t (some (v3 - 1)) } := by
    simp [decrease_counts, hm, hv, hm2, hv2, hv3]
  rw [hdec, Option.map_some']
  congr 1
  refine GibbsState.ext ?_ ?_ ?_ rfl rfl
  · simp only [increase_counts]
    rw [show (upd s.topic_term_count t (some (if v = 1 then upd m w none
        else upd m w (some (v - 1))))) t = some (if v = 1 then upd m w none
        else upd m w (some (v - 1))) from by simp [upd]]
    rw [Option.getD_some, upd_upd_same, upd_restore hv hv1]
    exact upd_eq_self hm
  · simp only [increase_counts]
    rw [show (upd s.doc_topic_count d (some (if v2 = 1 then upd m2 t none
        else upd m2 t (some (v2 - 1))))) d = some (if v2 = 1 then upd m2 t none
        else upd m2 t (some (v2 - 1))) from by simp [upd]]
    rw [Option.getD_some, upd_upd_same, upd_restore hv2 hv21]
    exact upd_eq_self hm2
  · simp only [increase_counts]
    rcases eq_or_ne v3 1 with h | h
    · subst h
      rw [if_pos rfl]
      rw [show (upd s.topic_count t none) t = none from by simp [upd]]
      rw [upd_upd_same]
      exact upd_eq_self hv3
    · rw [if_neg h]
      rw [show (upd s.topic_count t (some (v3 - 1))) t = some (v3 - 1) from by simp [upd]]
      rw [upd_upd_same, Option.getD_some]
      have hvv : v3 - 1 + 1 = v3 := by omega
      rw [hvv]
      exact upd_eq_self hv3

/-- C6 witness: the round trip at a concrete one-entry state. -/
theorem C6_witness :
    1 ≤ count_term wState 0 0 ∧ 1 ≤ count_doc wState 0 0 ∧ 1 ≤ count_topic wState 0 ∧
    (decrease_counts wState 0 0 0).map (fun s' => increase_counts s' 0 0 0)
      = some wState :=
  ⟨by decide, by decide, by decide,
    C6_decrease_increase_id wState 0 0 0 (by decide) (by decide) (by decide)⟩

/-- C7.  Starting from a state with no stored zero, an `increase` call stores no
zero (an increment produces a value ≥ 1), and a successful `decrease` call stores
no zero (a counter reaching zero is erased rather than stored). -/
theorem C7_no_zero_stored (s : GibbsState) (t w d : ℕ) (h : NoZeros s) :
    NoZeros (increase_counts s t w d) ∧
      ∀ s', decrease_counts s t w d = some s' → NoZeros s' := by
  obtain ⟨hA, hB, hC⟩ := h
  constructor
  · refine ⟨?_, ?_, ?_⟩
    · intro t' m' hm' w' v' hv'
      have hproj : (increase_counts s t w d).topic_term_count t'
          = if t' = t then some (upd ((s.topic_term_count t).getD emptyInner) w
              (some ((((s.topic_term_count t).getD emptyInner) w).getD 0 + 1)))
            else s.topic_term_count t' := by
        simp [increase_counts, upd]
      rw [hproj] at hm'
      by_cases ht : t' = t
      · rw [if_pos ht] at hm'
        cases Option.some.inj hm'
        simp only [upd] at hv'
        by_cases hw : w' = w
        · rw [if_pos hw] at hv'
          cases Option.some.inj hv'
          omega
        · rw [if_neg hw] at hv'
          rcases hmt : s.topic_term_count t with _ | m0
          · rw [hmt] at hv'
            exact Option.noConfusion hv'
          · rw [hmt] at hv'
            exact hA t m0 hmt w' v' hv'
      · rw [if_neg ht] at hm'
        exact hA t' m' hm' w' v' hv'
    · intro d' m' hm' t' v' hv'
      have hproj : (increase_counts s t w d).doc_topic_count d'
          = if d' = d then some (upd ((s.doc_topic_count d).getD emptyInner) t
              (some ((((s.doc_topic_count d).getD emptyInner) t).getD 0 + 1)))
            else s.doc_topic_count d' := by
        simp [increase_counts, upd]
      rw [hproj] at hm'
      by_cases hd : d' = d
      · rw [if_pos hd] at hm'
        cases Option.some.inj hm'
        simp only [upd] at hv'
        by_cases ht : t' = t
        · rw [if_pos ht] at hv'
          cases Option.some.inj hv'
          omega
        · rw [if_neg ht] at hv'
          rcases hmt : s.doc_topic_count d with _ | m0
          · rw [hmt] at hv'
            exact Option.noConfusion hv'
          · rw [hmt] at hv'
            exact hB d m0 hmt t' v' hv'
      · rw [if_neg hd] at hm'
        exact hB d' m' hm' t' v' hv'
    · intro t' v' hv'
      have hproj : (increase_counts s t w d).topic_count t'
          = if t' = t then some ((s.topic_count t).getD 0 + 1) else s.topic_count t' := by
        simp [increase_counts, upd]
      rw [hproj] at hv'
      by_cases ht : t' = t
      · rw [if_pos ht] at hv'
        cases Option.some.inj hv'
        omega
      · rw [if_neg ht] at hv'
        exact hC t' v' hv'
  · intro s' hdec
    rcases hm : s.topic_term_count t with _ | m <;> simp [decrease_counts, hm] at hdec
    rcases hv : m w with _ | v <;> simp [hv] at hdec
    rcases hm2 : s.doc_topic_count d with _ | m2 <;> simp [hm2] at hdec
    rcases hv2 : m2 t with _ | v2 <;> simp [hv2] at hdec
    rcases hv3 : s.topic_count t with _ | v3 <;> simp [hv3] at hdec
    have hv0 : 0 < v := hA t m hm w v hv
    have hv20 : 0 < v2 := hB d m2 hm2 t v2 hv2
    have hv30 : 0 < v3 := hC t v3 hv3
    rw [← hdec]
    refine ⟨?_, ?_, ?_⟩
    · intro t' m' hm' w' v' hv'
      simp only [upd] at hm'
      by_cases ht : t' = t
      · rw [if_pos ht] at hm'
        cases Option.some.inj hm'
        by_cases hw : w' = w
        · rcases eq_or_ne v 1 with h1 | h1
          · rw [if_pos h1] at hv'
            simp only [upd] at hv'
            rw [if_pos hw] at hv'
            exact Option.noConfusion hv'
          · rw [if_neg h1] at hv'
            simp only [upd] at hv'
            rw [if_pos hw] at hv'
            cases Option.some.inj hv'
            omega
        · have hmw' : m w' = some v' := by
            rcases eq_or_ne v 1 with h1 | h1
            · rw [if_pos h1] at hv'
              simp only [upd] at hv'
              rwa [if_neg hw] at hv'
            · rw [if_neg h1] at hv'
              simp only [upd] at hv'
              rwa [if_neg hw] at hv'
          exact hA t m hm w' v' hmw'
      · rw [if_neg ht] at hm'
        exact hA t' m' hm' w' v' hv'
    · intro d' m' hm' t' v' hv'
      simp only [upd] at hm'
      by_cases hd : d' = d
      · rw [if_pos hd] at hm'
        cases Option.some.inj hm'
        by_cases ht : t' = t
        · rcases eq_or_ne v2 1 with h1 | h1
          · rw [if_pos h1] at hv'
            simp only [upd] at hv'
            rw [if_pos ht] at hv'
            exact Option.noConfusion hv'
          · rw [if_neg h1] at hv'
            simp only [upd] at hv'
            rw [if_pos ht] at hv'
            cases Option.some.inj hv'
            omega
        · have hmt' : m2 t' = some v' := by
            rcases eq_or_ne v2 1 with h1 | h1
            · rw [if_pos h1] at hv'
              simp only [upd] at hv'
              rwa [if_neg ht] at hv'
            · rw [if_neg h1] at hv'
              simp only [upd] at hv'
              rwa [if_neg ht] at hv'
          exact hB d m2 hm2 t' v' hmt'
      · rw [if_neg hd] at hm'
        exact hB d' m' hm' t' v' hv'
    · intro t' v' hv'
      rcases eq_or_ne v3 1 with h1 | h1
      · rw [if_pos h1] at hv'
        simp only [upd] at hv'
        by_cases ht : t' = t
        · rw [if_pos ht] at hv'
          exact Option.noConfusion hv'
        · rw [if_neg ht] at hv'
          exact hC t' v' hv'
      · rw [if_neg h1] at hv'
        simp only [upd] at hv'
        by_cases ht : t' = t
        · rw [if_pos ht] at hv'
          cases Option.some.inj hv'
          omega
        · rw [if_neg ht] at hv'
          exact hC t' v' hv'

/-- A successful decrement whose addressed topic counter was at least one changes
`topic_count` exactly by removing one at the addressed topic. -/
theorem decrease_topic_pointwise {s s' : GibbsState} {t w d : ℕ}
    (h : decrease_counts s t w d = some s') (h1 : 1 ≤ count_topic s t) :
    ∀ t', count_topic s' t' + (if t' = t then 1 else 0) = count_topic s t' := by
  rcases hm : s.topic_term_count t with _ | m <;> simp [decrease_counts, hm] at h
  rcases hv : m w with _ | v <;> simp [hv] at h
  rcases hm2 : s.doc_topic_count d with _ | m2 <;> simp [hm2] at h
  rcases hv2 : m2 t with _ | v2 <;> simp [hv2] at h
  rcases hv3 : s.topic_count t with _ | v3 <;> simp [hv3] at h
  have hv31 : 1 ≤ v3 := by simpa [count_topic, hv3] using h1
  intro t'
  rw [← h]
  by_cases ht : t' = t
  · subst ht
    rcases eq_or_ne v3 1 with h1' | h1' <;> simp [count_topic, upd, hv3, h1'] <;> omega
  · rcases eq_or_ne v3 1 with h1' | h1' <;> simp [count_topic, upd, ht, h1']

/-- C2.  `Σ_t topic_count[t] = Σ_d doc_size(d)` holds right after the
initialization sweep, is preserved by every decrease/increase pair of a resample
step, and therefore holds in the final state of any completed `run`. -/
theorem C2_topic_total_invariant (p : LDAParams)
    (hdraw : ∀ ws i, p.draw ws i < p.num_topics) (hnodup : p.docs.Nodup)
    (hsize : ∀ d ∈ p.docs, p.doc_size d = (docTokens p d).length) :
    (∃ s0, init_sweep p fresh_state = some s0 ∧ TopicSum p s0 = totalSize p) ∧
    (∀ (s s' : GibbsState) (t t' w w' d d' : ℕ), t < p.num_topics → t' < p.num_topics →
      1 ≤ count_topic s t → decrease_counts s t w d = some s' →
      TopicSum p (increase_counts s' t' w' d') = TopicSum p s) ∧
    (∀ (iters : ℕ) (conv : ℚ) (out : GibbsState × List ℚ × RunStatus),
      run p iters conv fresh_state = some out → TopicSum p out.1 = totalSize p) := by
  refine ⟨?_, ?_, ?_⟩
  · obtain ⟨s0, hinit, _, _, hts⟩ := init_fresh p hdraw hnodup
    exact ⟨s0, hinit, by rw [hts, tokenList_length p hsize]⟩
  · intro s s' t t' w w' d d' ht ht' htc hdec
    have hp := decrease_topic_pointwise hdec htc
    have hd := TopicSum_decrease p ht hp
    have hi := TopicSum_increase p s' t' w' d' ht'
    omega
  · intro iters conv out hrun
    obtain ⟨out', hrun', _, _, hts⟩ := run_total p hdraw hnodup iters conv
    rw [hrun] at hrun'
    cases Option.some.inj hrun'
    rw [tokenList_length p hsize] at hts
    exact hts

/-- C2 witness: the invariant theorem applied at a one-token corpus. -/
theorem C2_witness :
    (∀ ws i, wParams.draw ws i < wParams.num_topics) ∧ wParams.docs.Nodup ∧
      (∀ d ∈ wParams.docs, wParams.doc_size d = (docTokens wParams d).length) ∧
      ∃ s0, init_sweep wParams fresh_state = some s0 ∧
        TopicSum wParams s0 = totalSize wParams :=
  ⟨fun _ _ => Nat.zero_lt_one, by decide, by decide,
    (C2_topic_total_invariant wParams (fun _ _ => Nat.zero_lt_one) (by decide)
      (by decide)).1⟩

/-- The code's ratio test `fabs((L - L') / L) ≤ ε` coincides, step by step, with
the spec's `|L' - L| / |L| ≤ ε`, so the two loops are the same function. -/
theorem run_loop_eq_specRunLoop (p : LDAParams) (conv : ℚ) :
    ∀ (fuel : ℕ) (L : ℚ) (s : GibbsState) (acc : List ℚ),
      run_loop p conv fuel L s acc = specRunLoop p conv fuel L s acc := by
  intro fuel
  induction fuel with
  | zero => intro L s acc; rfl
  | succ fuel ih =>
    intro L s acc
    simp only [run_loop, specRunLoop]
    rcases hit : perform_iteration p false s with _ | s'
    · rfl
    · simp only [Option.some_bind]
      have habs : |(L - corpus_likelihood p s') / L|
          = |corpus_likelihood p s' - L| / |L| := by
        rw [abs_div, abs_sub_comm]
      rw [habs]
      by_cases hc : |corpus_likelihood p s' - L| / |L| ≤ conv
      · rw [if_pos hc, if_pos hc]
      · rw [if_neg hc, if_neg hc, ih]

/-- C3.  From the construction state, `run(max_iters, ε)` always terminates with a
non-error status (an element of `{Converged, Exhausted}`): every iteration's
decrement succeeds, the loop computes `ratio = |L_k − L_{k−1}| / |L_{k−1}|` (the
code's `fabs((L−L')/L)` equals the spec's formula) with `L_0` taken from
post-initialization, stops with `Converged` when `ratio ≤ ε` and with `Exhausted`
once `max_iters` iterations have run; `max_iters = 0` performs only the
initialization sweep and terminates as `Exhausted`. -/
theorem C3_run_terminates (p : LDAParams)
    (hdraw : ∀ ws i, p.draw ws i < p.num_topics) (hnodup : p.docs.Nodup) :
    (∀ (iters : ℕ) (conv : ℚ), ∃ out, run p iters conv fresh_state = some out) ∧
    (∀ conv : ℚ, ∃ s0, init_sweep p fresh_state = some s0 ∧
      run p 0 conv fresh_state = some (s0, [], RunStatus.Exhausted)) ∧
    (∀ (conv : ℚ) (fuel : ℕ) (L : ℚ) (s : GibbsState) (acc : List ℚ),
      run_loop p conv fuel L s acc = specRunLoop p conv fuel L s acc) := by
  refine ⟨?_, ?_, ?_⟩
  · intro iters conv
    obtain ⟨out, hrun, _⟩ := run_total p hdraw hnodup iters conv
    exact ⟨out, hrun⟩
  · intro conv
    obtain ⟨s0, hinit, _⟩ := init_fresh p hdraw hnodup
    refine ⟨s0, hinit, ?_⟩
    rw [run, hinit]
    rfl
  · intro conv
    exact run_loop_eq_specRunLoop p conv

/-- C3 witness: the termination theorem applied at a one-token corpus. -/
theorem C3_witness :
    wParams.docs.Nodup ∧ (∀ ws i, wParams.draw ws i < wParams.num_topics) ∧
      ∃ out, run wParams 1 1 fresh_state = some out :=
  ⟨by decide, fun _ _ => Nat.zero_lt_one,
    (C3_run_terminates wParams (fun _ _ => Nat.zero_lt_one) (by decide)).1 1 1⟩

/-- C10.  Each call to `run` begins with an initialization sweep that only
increments, never decrements or clears; on a sampler whose `run` already completed
(so `Σ_t topic_count[t] = totalSize`), the second `run`'s initialization sweep
leaves the tables double-counted: `Σ_t topic_count[t] = 2 · Σ_d doc_size(d)`. -/
theorem C10_second_run_double_counts (p : LDAParams)
    (hdraw : ∀ ws i, p.draw ws i < p.num_topics) (hnodup : p.docs.Nodup)
    (hsize : ∀ d ∈ p.docs, p.doc_size d = (docTokens p d).length)
    (iters : ℕ) (conv : ℚ) (out : GibbsState × List ℚ × RunStatus)
    (hrun : run p iters conv fresh_state = some out) :
    ∃ s2, init_sweep p out.1 = some s2 ∧ TopicSum p s2 = 2 * totalSize p := by
  obtain ⟨out', hrun', _, _, hts⟩ := run_total p hdraw hnodup iters conv
  rw [hrun] at hrun'
  cases Option.some.inj hrun'
  obtain ⟨s2, hfold, _, _, _, _, _, hTS⟩ :=
    flat_init p hdraw (tokenList p) out.1 (tokenList_posNodup p hnodup)
  refine ⟨s2, ?_, ?_⟩
  · rw [init_sweep, perform_iteration_eq_sweep]
    exact hfold
  · rw [hTS, hts, tokenList_length p hsize]
    omega

/-- C10 witness: the double-count theorem applied to a concrete completed run on a
one-token corpus. -/
theorem C10_witness :
    ∃ out s2, run wParams 0 1 fresh_state = some out ∧
      init_sweep wParams out.1 = some s2 ∧
      TopicSum wParams s2 = 2 * totalSize wParams := by
  have hrun : run wParams 0 1 fresh_state
      = some ((run wParams 0 1 fresh_state).get (by decide)) := (Option.some_get _).symm
  obtain ⟨s2, hinit, hts⟩ := C10_second_run_double_counts wParams
    (fun _ _ => Nat.zero_lt_one) (by decide) (by decide) 0 1 _ hrun
  exact ⟨_, s2, hrun, hinit, hts⟩

/-- C7 witness: preservation applied at the empty construction state, whose tables
trivially store no zero. -/
theorem C7_witness :
    NoZeros fresh_state ∧
      (NoZeros (increase_counts fresh_state 0 0 0) ∧
        ∀ s', decrease_counts fresh_state 0 0 0 = some s' → NoZeros s') :=
  ⟨⟨fun _ _ h => Option.noConfusion h, fun _ _ h => Option.noConfusion h,
      fun _ _ h => Option.noConfusion h⟩,
    C7_no_zero_stored fresh_state 0 0 0
      ⟨fun _ _ h => Option.noConfusion h, fun _ _ h => Option.noConfusion h,
        fun _ _ h => Option.noConfusion h⟩⟩

end topics
